import Mathlib

/-!
# Verification of the opencode-copilot-instructions session tracker and orchestrator

Shallow embedding of the `SessionState` class (`src/session-state.ts`) and the
marker-handling parts of the plugin (`src/index.ts`): JS `Map`s are modelled as
association lists (first-occurrence lookup, in-place update keeping position,
append on fresh key — matching JS `Map` insertion-order semantics), JS `Set`s as
duplicate-free lists in insertion order.
-/

set_option autoImplicit false
set_option maxRecDepth 8192

universe u

/-- Model of JS `Map.prototype.get`: value at the first occurrence of the key. -/
def mapGet {α : Type u} : List (String × α) → String → Option α
  | [], _ => none
  | (k', v) :: rest, k => if k' = k then some v else mapGet rest k

/-- Model of JS `Map.prototype.set`: replace the value at the existing key
(keeping its position) or append a fresh entry at the end. -/
def mapSet {α : Type u} : List (String × α) → String → α → List (String × α)
  | [], k, v => [(k, v)]
  | (k', v') :: rest, k, v =>
    if k' = k then (k, v) :: rest else (k', v') :: mapSet rest k v

/-- Model of JS `Map.prototype.delete`: remove the entry at the key, if any. -/
def mapDelete {α : Type u} : List (String × α) → String → List (String × α)
  | [], _ => []
  | (k', v') :: rest, k => if k' = k then rest else (k', v') :: mapDelete rest k

/-- Model of JS `Set.prototype.add`: append the element if it is not present. -/
def setAdd (l : List String) (x : String) : List String :=
  if x ∈ l then l else l ++ [x]

/-- Model of JS `Set.prototype.delete`: remove the element, if present. -/
def setDelete : List String → String → List String
  | [], _ => []
  | y :: rest, x => if y = x then rest else y :: setDelete rest x

/-- Model of Node `path.basename` for POSIX paths: drop trailing slashes, then
take the final path segment. -/
def basename (p : String) : String :=
  let cs := p.data.reverse.dropWhile (fun c => c == '/')
  String.mk (cs.takeWhile (fun c => c != '/')).reverse

/-- The state held by the `SessionState` class (`src/session-state.ts`):
per-session injected instruction files, per-session repo-instruction flags and
per-call pending instruction text. -/
structure SessionState where
  injectedPerSession : List (String × List String)
  repoInstructionsInjected : List String
  pendingInstructions : List (String × String)
deriving Repr, DecidableEq

/-- `new SessionState()`: all three containers empty. -/
def SessionState.init : SessionState := ⟨[], [], []⟩

/-- `SessionState.isFileInjected`. -/
def SessionState.isFileInjected (st : SessionState) (sessionId file : String) : Bool :=
  match mapGet st.injectedPerSession sessionId with
  | some sessionFiles => sessionFiles.contains file
  | none => false

/-- `SessionState.markFileInjected`. -/
def SessionState.markFileInjected (st : SessionState) (sessionId file : String) : SessionState :=
  let sessionFiles := (mapGet st.injectedPerSession sessionId).getD []
  { st with injectedPerSession :=
      mapSet st.injectedPerSession sessionId (setAdd sessionFiles file) }

/-- `SessionState.clearFileMarker`. -/
def SessionState.clearFileMarker (st : SessionState) (sessionId file : String) : SessionState :=
  match mapGet st.injectedPerSession sessionId with
  | some sessionFiles =>
      { st with injectedPerSession :=
          mapSet st.injectedPerSession sessionId (setDelete sessionFiles file) }
  | none => st

/-- `SessionState.getInjectedFiles` (returns a copy; in the pure model the
returned list is the session's list). -/
def SessionState.getInjectedFiles (st : SessionState) (sessionId : String) : List String :=
  (mapGet st.injectedPerSession sessionId).getD []

/-- `SessionState.syncWithMarkers`: for every tracked session, delete every
injected file whose basename is not among the present markers. -/
def SessionState.syncWithMarkers (st : SessionState) (presentMarkers : List String) : SessionState :=
  { st with injectedPerSession :=
      st.injectedPerSession.map (fun pr =>
        (pr.1, pr.2.filter (fun file => presentMarkers.contains (basename file)))) }

/-- `SessionState.hasRepoInstructions`. -/
def SessionState.hasRepoInstructions (st : SessionState) (sessionId : String) : Bool :=
  st.repoInstructionsInjected.contains sessionId

/-- `SessionState.markRepoInstructionsInjected`. -/
def SessionState.markRepoInstructionsInjected (st : SessionState) (sessionId : String) : SessionState :=
  { st with repoInstructionsInjected := setAdd st.repoInstructionsInjected sessionId }

/-- `SessionState.setPending`. -/
def SessionState.setPending (st : SessionState) (callId text : String) : SessionState :=
  { st with pendingInstructions := mapSet st.pendingInstructions callId text }

/-- `SessionState.getPending`. -/
def SessionState.getPending (st : SessionState) (callId : String) : Option String :=
  mapGet st.pendingInstructions callId

/-- `SessionState.consumePending`: read the staged text and, when present,
delete its entry. Returns the read result together with the updated state. -/
def SessionState.consumePending (st : SessionState) (callId : String) :
    Option String × SessionState :=
  match mapGet st.pendingInstructions callId with
  | some text =>
      (some text, { st with pendingInstructions := mapDelete st.pendingInstructions callId })
  | none => (none, st)

/-- Modelled from the spec: `SessionState.clearSession` is invoked by the
plugin's `session.compacted` handler and exercised by the unit tests, but its
implementation is not among the provided sources. Spec: "drops the session's
delivered-file set and repo-flag membership; does not touch `pendingByCall`". -/
def SessionState.clearSession (st : SessionState) (sessionId : String) : SessionState :=
  { st with
      injectedPerSession := mapDelete st.injectedPerSession sessionId,
      repoInstructionsInjected := setDelete st.repoInstructionsInjected sessionId }

/-- A loaded path-scoped instruction record (`PathInstruction` in `loader.ts`):
`file` is the full path of the source file, `applyTo` the glob patterns from the
frontmatter, `content` the body, and `matcher` the compiled glob predicate. -/
structure PathInstruction where
  file : String
  applyTo : List String
  content : String
  matcher : String → Bool

/-- `FILE_TOOLS`: the tools that work with file paths. -/
def FILE_TOOLS : List String := ["read", "edit", "write"]

/-- The value found at `output.args?.filePath` in the pre-execution hook: either
absent (`undefined`, possibly because `args` itself is absent), present but not
a string, or a string. -/
inductive FilePathArg where
  | absent
  | nonString
  | str (s : String)

/-- Model of JS string join: `[..].join(sep)`. -/
def joinStrings (sep : String) : List String → String
  | [] => ""
  | [a] => a
  | a :: b :: rest => a ++ sep ++ joinStrings sep (b :: rest)

/-- Model of JS `String.prototype.trimEnd`: drop trailing whitespace. -/
def trimEnd (s : String) : String :=
  String.mk (s.data.reverse.dropWhile Char.isWhitespace).reverse

/-- Whether a string ends with `'/'` (model of `directory.endsWith('/')`). -/
def endsWithSlash (s : String) : Bool :=
  match s.data.getLast? with
  | some c => c == '/'
  | none => false

/-- Whether a string starts with `'/'` (model of POSIX `path.isAbsolute`). -/
def startsWithSlash (s : String) : Bool :=
  match s.data with
  | c :: _ => c == '/'
  | [] => false

/-- Split a string at every `'/'` (model of `splitting a path into segments`,
keeping empty segments like JS `split('/')`). -/
def splitSlashAux : List Char → List Char → List String
  | [], acc => [String.mk acc.reverse]
  | c :: rest, acc =>
      if c == '/' then String.mk acc.reverse :: splitSlashAux rest []
      else splitSlashAux rest (c :: acc)

/-- The `'/'`-separated segments of a string. -/
def splitSlash (s : String) : List String := splitSlashAux s.data []

/-- The segments of a common prefix removed from two segment lists (used to
model Node `path.relative` on normalized absolute paths). -/
def dropCommonPrefix : List String → List String → List String × List String
  | a :: as, b :: bs => if a = b then dropCommonPrefix as bs else (a :: as, b :: bs)
  | as, bs => (as, bs)

/-- Model of Node `path.relative` for already-normalized absolute POSIX paths
(no `.`/`..` segments): strip the common leading segments, then go up with
`..` for each remaining source segment and down the remaining target ones. -/
def pathRelative (fromPath toPath : String) : String :=
  let f := (splitSlash fromPath).filter (fun s => s != "")
  let t := (splitSlash toPath).filter (fun s => s != "")
  let pr := dropCommonPrefix f t
  joinStrings "/" (pr.1.map (fun _ => "..") ++ pr.2)

/-- `getRelativePath` from `index.ts`: normalize the directory (drop one
trailing slash), return relative inputs as-is, otherwise relativize. -/
def getRelativePath (directory filePath : String) : String :=
  let normalizedDir :=
    if endsWithSlash directory then String.mk directory.data.dropLast else directory
  if ¬ startsWithSlash filePath then filePath
  else pathRelative normalizedDir filePath

/-- The formatted block emitted for one matched instruction (the template
literal in `tool.execute.before`). -/
def formatBlock (i : PathInstruction) : String :=
  let filename := basename i.file
  let patterns := joinStrings ", " i.applyTo
  "<copilot-instruction:" ++ filename ++ ">\n## Path-Specific Instructions (applies to: "
    ++ patterns ++ ")\n\n" ++ trimEnd i.content ++ "\n</copilot-instruction:" ++ filename ++ ">"

/-- The opening-tag literal of the marker wire format. -/
def tagChars : List Char := "<copilot-instruction:".data

/-- Fueled scanner modelling the regex loop
`/<copilot-instruction:([^>]+)>/g` of `extractInstructionMarkers`: at each
position, either the opening literal followed by a nonempty `'>'`-free token
and a closing `'>'` matches (emit the token, resume after the `'>'`), or the
scan advances one character. One unit of fuel is spent per step, so fuel equal
to the input length always suffices. -/
def scanAux : Nat → List Char → List String
  | 0, _ => []
  | _ + 1, [] => []
  | fuel + 1, c :: cs =>
    if tagChars.isPrefixOf (c :: cs) then
      let after := (c :: cs).drop tagChars.length
      let tok := after.takeWhile (fun ch => ch != '>')
      let rem := after.drop tok.length
      if tok.isEmpty || rem.isEmpty then
        scanAux fuel cs
      else
        String.mk tok :: scanAux fuel rem.tail
    else
      scanAux fuel cs

/-- The sequence of marker tokens found in a character list. -/
def scanMarkerList (l : List Char) : List String :=
  scanAux l.length l

/-- `extractInstructionMarkers` from `index.ts`: the distinct marker tokens of
a text, in first-occurrence order (the JS code accumulates them in a `Set`). -/
def extractInstructionMarkers (text : String) : List String :=
  (scanMarkerList text.data).foldl setAdd []

/-- The fields of the pre-execution hook input used by the plugin. -/
structure HookInput where
  tool : String
  sessionID : String
  callID : String

/-- The instruction-collecting loop of `tool.execute.before`: walk the loaded
records in order, skip those already injected in this session, and for each
match record it in the accumulated list and mark it injected at once. -/
def collectMatches (sessionID relativePath : String) :
    List PathInstruction → SessionState → List PathInstruction × SessionState
  | [], st => ([], st)
  | i :: rest, st =>
    if st.isFileInjected sessionID i.file then
      collectMatches sessionID relativePath rest st
    else if i.matcher relativePath then
      let st' := st.markFileInjected sessionID i.file
      let pr := collectMatches sessionID relativePath rest st'
      (i :: pr.1, pr.2)
    else
      collectMatches sessionID relativePath rest st

/-- `tool.execute.before`: no-op unless the tool is a file tool and the
`filePath` argument is a truthy string; otherwise collect the matching
not-yet-injected instructions (marking them injected) and, when any matched,
stage their formatted blocks (joined by a blank line) under the call id. -/
def toolExecuteBefore (pathInstructions : List PathInstruction) (projectDir : String)
    (st : SessionState) (input : HookInput) (filePath : FilePathArg) : SessionState :=
  if ¬ FILE_TOOLS.contains input.tool then st
  else
    match filePath with
    | FilePathArg.str s =>
        if s = "" then st
        else
          let relativePath := getRelativePath projectDir s
          let pr := collectMatches input.sessionID relativePath pathInstructions st
          if pr.1.isEmpty then pr.2
          else pr.2.setPending input.callID (joinStrings "\n\n" (pr.1.map formatBlock))
    | _ => st

/-- `tool.execute.after`: consume any staged text for the call and, when it is
truthy (a non-empty string), append it to the tool output after a blank line.
Returns the updated state and the final output text. -/
def toolExecuteAfter (st : SessionState) (callID : String) (out : String) :
    SessionState × String :=
  let pr := st.consumePending callID
  match pr.1 with
  | some text => if text = "" then (pr.2, out) else (pr.2, out ++ "\n\n" ++ text)
  | none => (pr.2, out)

/-! ## Scanner analysis helpers -/

/-- The scanner's suffix after the opening literal at the current position. -/
def tagRest (l : List Char) : List Char := l.drop tagChars.length

/-- The scanner's candidate token at the current position. -/
def tagTok (l : List Char) : List Char := (tagRest l).takeWhile (fun ch => ch != '>')

/-- What remains after the candidate token at the current position. -/
def tagRem (l : List Char) : List Char := (tagRest l).drop (tagTok l).length

/-- Wire-format well-formedness of a record's identity (its file's base name):
nonempty and free of the tag delimiter characters. The spec's marker format
requires the identity to contain no `>`. -/
def goodId (i : PathInstruction) : Prop :=
  (basename i.file).data ≠ []
  ∧ (∀ a ∈ (basename i.file).data, a ≠ '>')
  ∧ (∀ a ∈ (basename i.file).data, a ≠ '<')

instance (i : PathInstruction) : Decidable (goodId i) := by
  unfold goodId
  infer_instance

/-- The record's body and patterns embed no `<`, so the formatted block
contains no spurious opening tag. -/
def cleanBody (i : PathInstruction) : Prop :=
  (∀ a ∈ i.content.data, a ≠ '<')
  ∧ (∀ p ∈ i.applyTo, ∀ a ∈ p.data, a ≠ '<')

instance (i : PathInstruction) : Decidable (cleanBody i) := by
  unfold cleanBody
  infer_instance

/-- A concrete loaded record as the loader builds it: full file path under
`.github/instructions`, patterns from the frontmatter, body, compiled matcher. -/
def tsRecord : PathInstruction :=
  PathInstruction.mk "/proj/.github/instructions/ts.instructions.md" ["**/*.ts"]
    "Use strict types." (fun _ => true)

/-- A concrete record whose body embeds a marker-shaped string. -/
def evilRecord : PathInstruction :=
  PathInstruction.mk "ts.md" ["**/*.ts"] "<copilot-instruction:evil>" (fun _ => true)

/-- A concrete record that matches only `src/b.ts` and whose body embeds the
marker-shaped string of `tsRecord`'s identity. -/
def sneakyRecord : PathInstruction :=
  PathInstruction.mk "/proj/.github/instructions/sneaky.instructions.md" ["src/b.ts"]
    "<copilot-instruction:ts.instructions.md>" (fun p => p == "src/b.ts")

example : SessionState.isFileInjected
    (SessionState.markFileInjected SessionState.init "A" "f") "A" "f" = true := by decide

example : basename "/a/b/ts.instructions.md" = "ts.instructions.md" := by decide

example : basename "x" = "x" := by decide

/-! ## Association-list and set lemmas -/

theorem mapGet_mapSet {α : Type u} (m : List (String × α)) (k k' : String) (v : α) :
    mapGet (mapSet m k v) k' = if k = k' then some v else mapGet m k' := by
  induction m with
  | nil => simp [mapSet, mapGet]
  | cons hd tl ih =>
    obtain ⟨k'', v''⟩ := hd
    by_cases h : k'' = k
    · subst h
      by_cases h2 : k'' = k' <;> simp [mapSet, mapGet, h2]
    · by_cases h2 : k'' = k'
      · subst h2
        have hk : ¬ k = k'' := fun e => h e.symm
        simp [mapSet, mapGet, h, hk]
      · simp [mapSet, mapGet, h, h2, ih]

theorem mapGet_mapDelete_ne {α : Type u} (m : List (String × α)) (k k' : String)
    (h : k ≠ k') : mapGet (mapDelete m k) k' = mapGet m k' := by
  induction m with
  | nil => simp [mapDelete]
  | cons hd tl ih =>
    obtain ⟨k'', v''⟩ := hd
    by_cases h2 : k'' = k
    · subst h2
      have hk : ¬ k'' = k' := fun e => h e
      simp [mapDelete, mapGet, hk]
    · simp [mapDelete, mapGet, h2, ih]

theorem mapGet_eq_none_of_keys_not_mem {α : Type u} (m : List (String × α)) (k : String)
    (h : k ∉ m.map Prod.fst) : mapGet m k = none := by
  induction m with
  | nil => simp [mapGet]
  | cons hd tl ih =>
    obtain ⟨k', v⟩ := hd
    simp only [List.map_cons, List.mem_cons] at h
    push_neg at h
    have hk : ¬ k' = k := fun e => h.1 (e ▸ rfl)
    simp [mapGet, hk, ih h.2]

theorem mapGet_mapDelete_self {α : Type u} (m : List (String × α)) (k : String)
    (h : (m.map Prod.fst).Nodup) : mapGet (mapDelete m k) k = none := by
  induction m with
  | nil => simp [mapDelete, mapGet]
  | cons hd tl ih =>
    obtain ⟨k', v⟩ := hd
    simp only [List.map_cons, List.nodup_cons] at h
    by_cases h2 : k' = k
    · subst h2
      simp only [mapDelete, if_pos rfl]
      exact mapGet_eq_none_of_keys_not_mem tl k' h.1
    · simp [mapDelete, mapGet, h2, ih h.2]

theorem mapDelete_of_mapGet_none {α : Type u} (m : List (String × α)) (k : String)
    (h : mapGet m k = none) : mapDelete m k = m := by
  induction m with
  | nil => simp [mapDelete]
  | cons hd tl ih =>
    obtain ⟨k', v⟩ := hd
    by_cases h2 : k' = k
    · simp [mapGet, h2] at h
    · simp only [mapGet, if_neg h2] at h
      simp [mapDelete, h2, ih h]

theorem mapSet_of_mapGet_eq {α : Type u} (m : List (String × α)) (k : String) (v : α)
    (h : mapGet m k = some v) : mapSet m k v = m := by
  induction m with
  | nil => simp [mapGet] at h
  | cons hd tl ih =>
    obtain ⟨k', v'⟩ := hd
    by_cases h2 : k' = k
    · subst h2
      have hv : v' = v := by simpa [mapGet] using h
      subst hv
      simp [mapSet]
    · simp only [mapGet, if_neg h2] at h
      simp [mapSet, h2, ih h]

theorem mem_setAdd (l : List String) (x y : String) :
    y ∈ setAdd l x ↔ y ∈ l ∨ y = x := by
  by_cases h : x ∈ l
  · simp only [setAdd, if_pos h]
    constructor
    · exact fun hy => Or.inl hy
    · rintro (hy | rfl)
      · exact hy
      · exact h
  · simp [setAdd, if_neg h]

theorem contains_setAdd (l : List String) (x y : String) :
    (setAdd l x).contains y = (l.contains y || decide (y = x)) := by
  unfold setAdd
  by_cases h : x ∈ l
  · simp only [if_pos h, List.contains, List.elem_eq_mem]
    by_cases h2 : y = x
    · subst h2; simp [h]
    · simp [h2]
  · simp [if_neg h, List.contains, List.elem_eq_mem]

theorem setAdd_of_mem (l : List String) (x : String) (h : x ∈ l) : setAdd l x = l := by
  simp [setAdd, h]

theorem mem_setAdd_self (l : List String) (x : String) : x ∈ setAdd l x := by
  rw [mem_setAdd]; exact Or.inr rfl

theorem setAdd_nodup (l : List String) (x : String) (h : l.Nodup) : (setAdd l x).Nodup := by
  unfold setAdd
  by_cases hm : x ∈ l
  · simpa [hm]
  · simp [hm, h, List.nodup_append]

theorem count_setAdd_self (l : List String) (x : String) (h : l.Nodup) :
    (setAdd l x).count x = 1 :=
  List.count_eq_one_of_mem (setAdd_nodup l x h) (mem_setAdd_self l x)

theorem setDelete_of_not_mem (l : List String) (x : String) (h : x ∉ l) :
    setDelete l x = l := by
  induction l with
  | nil => simp [setDelete]
  | cons y rest ih =>
    simp only [List.mem_cons] at h
    push_neg at h
    have hy : ¬ y = x := fun e => h.1 e.symm
    simp [setDelete, hy, ih h.2]

theorem contains_setDelete_self (l : List String) (x : String) (h : l.Nodup) :
    (setDelete l x).contains x = false := by
  induction l with
  | nil => simp [setDelete]
  | cons y rest ih =>
    simp only [List.nodup_cons] at h
    by_cases hy : y = x
    · subst hy
      simp only [setDelete, if_pos rfl]
      simp [List.contains, List.elem_eq_mem, h.1]
    · simp only [setDelete, if_neg hy]
      simp only [List.contains, List.elem_eq_mem] at ih ⊢
      have hx : ¬ x = y := fun e => hy e.symm
      simp [hx, ih h.2]

theorem contains_setDelete_ne (l : List String) (x y : String) (h : y ≠ x) :
    (setDelete l x).contains y = l.contains y := by
  induction l with
  | nil => simp [setDelete]
  | cons z rest ih =>
    by_cases hz : z = x
    · subst hz
      simp only [setDelete, if_pos rfl]
      have hy : ¬ y = z := h
      simp [List.contains, List.elem_eq_mem, hy]
    · simp only [setDelete, if_neg hz]
      simp only [List.contains, List.elem_eq_mem] at ih ⊢
      simp [ih]

theorem mapGet_mapFilter (m : List (String × List String)) (p : String → Bool) (k : String) :
    mapGet (m.map (fun pr => (pr.1, pr.2.filter p))) k
      = (mapGet m k).map (fun l => l.filter p) := by
  induction m with
  | nil => simp [mapGet]
  | cons hd tl ih =>
    obtain ⟨k', v⟩ := hd
    by_cases h : k' = k <;> simp [mapGet, h, ih]

theorem contains_filter (l : List String) (p : String → Bool) (y : String) :
    (l.filter p).contains y = (l.contains y && p y) := by
  induction l with
  | nil => simp
  | cons z rest ih =>
    by_cases hz : p z = true
    · simp only [List.filter_cons, if_pos hz]
      by_cases hy : y = z
      · subst hy; simp [List.contains, List.elem_eq_mem, hz]
      · simp only [List.contains, List.elem_eq_mem, List.mem_cons] at ih ⊢
        simp [hy, ih]
    · simp only [List.filter_cons, hz, if_neg]
      by_cases hy : y = z
      · subst hy
        simp only [List.contains, List.elem_eq_mem] at ih ⊢
        simp only [Bool.not_eq_true] at hz
        simp [hz, ih]
      · simp only [List.contains, List.elem_eq_mem, List.mem_cons] at ih ⊢
        simp [hy, ih]




/-! ## SessionState characterization lemmas -/

theorem isFileInjected_eq_contains (st : SessionState) (s f : String) :
    st.isFileInjected s f = (st.getInjectedFiles s).contains f := by
  unfold SessionState.isFileInjected SessionState.getInjectedFiles
  cases mapGet st.injectedPerSession s <;> simp

theorem getInjectedFiles_markFileInjected (st : SessionState) (s' f' s : String) :
    (st.markFileInjected s' f').getInjectedFiles s =
      if s' = s then setAdd (st.getInjectedFiles s') f' else st.getInjectedFiles s := by
  unfold SessionState.markFileInjected SessionState.getInjectedFiles
  simp only [mapGet_mapSet]
  by_cases h : s' = s <;> simp [h]

theorem getInjectedFiles_clearFileMarker (st : SessionState) (s' f' s : String) :
    (st.clearFileMarker s' f').getInjectedFiles s =
      if s' = s then setDelete (st.getInjectedFiles s') f' else st.getInjectedFiles s := by
  unfold SessionState.clearFileMarker SessionState.getInjectedFiles
  cases hm : mapGet st.injectedPerSession s' with
  | some files =>
      simp only [mapGet_mapSet]
      by_cases h : s' = s <;> simp [h, hm]
  | none =>
      by_cases h : s' = s
      · subst h
        simp [hm, setDelete]
      · simp [h]

theorem getInjectedFiles_syncWithMarkers (st : SessionState) (M : List String) (s : String) :
    (st.syncWithMarkers M).getInjectedFiles s =
      (st.getInjectedFiles s).filter (fun f => M.contains (basename f)) := by
  unfold SessionState.syncWithMarkers SessionState.getInjectedFiles
  simp only [mapGet_mapFilter]
  cases mapGet st.injectedPerSession s <;> simp

theorem pending_markFileInjected (st : SessionState) (s f : String) :
    (st.markFileInjected s f).pendingInstructions = st.pendingInstructions := rfl

theorem repo_markFileInjected (st : SessionState) (s f : String) :
    (st.markFileInjected s f).repoInstructionsInjected = st.repoInstructionsInjected := rfl

theorem getPending_setPending (st : SessionState) (c c' t : String) :
    (st.setPending c t).getPending c' = if c = c' then some t else st.getPending c' := by
  unfold SessionState.setPending SessionState.getPending
  simp [mapGet_mapSet]

theorem injected_setPending (st : SessionState) (c t : String) :
    (st.setPending c t).injectedPerSession = st.injectedPerSession := rfl

theorem injected_consumePending (st : SessionState) (c : String) :
    (st.consumePending c).2.injectedPerSession = st.injectedPerSession := by
  unfold SessionState.consumePending
  cases mapGet st.pendingInstructions c <;> simp

theorem repo_consumePending (st : SessionState) (c : String) :
    (st.consumePending c).2.repoInstructionsInjected = st.repoInstructionsInjected := by
  unfold SessionState.consumePending
  cases mapGet st.pendingInstructions c <;> simp

theorem mem_keys_mapSet {α : Type u} (m : List (String × α)) (k : String) (v : α) (x : String) :
    x ∈ (mapSet m k v).map Prod.fst ↔ x ∈ m.map Prod.fst ∨ x = k := by
  induction m with
  | nil => simp [mapSet]
  | cons hd tl ih =>
    obtain ⟨k', v'⟩ := hd
    by_cases h : k' = k
    · subst h
      have hs : mapSet ((k', v') :: tl) k' v = (k', v) :: tl := by simp [mapSet]
      rw [hs]
      simp only [List.map_cons, List.mem_cons]
      tauto
    · have hs : mapSet ((k', v') :: tl) k v = (k', v') :: mapSet tl k v := by
        simp [mapSet, h]
      rw [hs]
      simp only [List.map_cons, List.mem_cons, ih]
      tauto

theorem keys_mapSet_nodup {α : Type u} (m : List (String × α)) (k : String) (v : α)
    (h : (m.map Prod.fst).Nodup) : ((mapSet m k v).map Prod.fst).Nodup := by
  induction m with
  | nil => simp [mapSet]
  | cons hd tl ih =>
    obtain ⟨k', v'⟩ := hd
    simp only [List.map_cons, List.nodup_cons] at h
    by_cases h2 : k' = k
    · subst h2
      have hs : mapSet ((k', v') :: tl) k' v = (k', v) :: tl := by simp [mapSet]
      rw [hs]
      simp only [List.map_cons, List.nodup_cons]
      exact ⟨h.1, h.2⟩
    · have hs : mapSet ((k', v') :: tl) k v = (k', v') :: mapSet tl k v := by
        simp [mapSet, h2]
      rw [hs]
      simp only [List.map_cons, List.nodup_cons]
      refine ⟨fun hm => ?_, ih h.2⟩
      rw [mem_keys_mapSet] at hm
      rcases hm with hm | hm
      · exact h.1 hm
      · exact h2 hm

/-! ## Claim theorems -/

/-- C1: `syncWithMarkers` is a pure filter over every tracked session's
delivered set: an entry survives exactly when its marker (the base name of the
stored file key) is in `presentMarkers`, no entry is ever added, entries whose
marker is present are left untouched; on the delivered sets `{"A": {"x","y"}}`
the call `syncWithMarkers {"x"}` keeps `"x"` and drops `"y"`, and syncing with
the empty marker set empties every session's delivered set. -/
theorem C1_syncWithMarkers_pure_filter :
    (∀ (st : SessionState) (M : List String) (s f : String),
        (st.syncWithMarkers M).isFileInjected s f
          = (st.isFileInjected s f && M.contains (basename f)))
    ∧ ((SessionState.mk [("A", ["x", "y"])] [] []).syncWithMarkers ["x"]).isFileInjected "A" "x"
        = true
    ∧ ((SessionState.mk [("A", ["x", "y"])] [] []).syncWithMarkers ["x"]).isFileInjected "A" "y"
        = false
    ∧ (∀ (st : SessionState) (s : String),
        (st.syncWithMarkers []).getInjectedFiles s = []) := by
  refine ⟨fun st M s f => ?_, by decide, by decide, fun st s => ?_⟩
  · rw [isFileInjected_eq_contains, getInjectedFiles_syncWithMarkers, contains_filter,
      isFileInjected_eq_contains]
  · rw [getInjectedFiles_syncWithMarkers]
    simp [List.contains]

/-- C10: delivery is tracked under full file paths while `syncWithMarkers`
compares base names — a tracked key survives the sync exactly when the base
name of the key is among the markers, so two tracked keys with the same base
name are always kept together or evicted together. -/
theorem C10_sync_compares_basenames :
    (∀ (st : SessionState) (M : List String) (s f : String),
        st.isFileInjected s f = true →
          ((st.syncWithMarkers M).isFileInjected s f = true ↔ basename f ∈ M))
    ∧ (∀ (st : SessionState) (M : List String) (s f₁ f₂ : String),
        basename f₁ = basename f₂ →
          st.isFileInjected s f₁ = true → st.isFileInjected s f₂ = true →
          (st.syncWithMarkers M).isFileInjected s f₁
            = (st.syncWithMarkers M).isFileInjected s f₂) := by
  have key : ∀ (st : SessionState) (M : List String) (s f : String),
      (st.syncWithMarkers M).isFileInjected s f
        = (st.isFileInjected s f && M.contains (basename f)) := by
    intro st M s f
    rw [isFileInjected_eq_contains, getInjectedFiles_syncWithMarkers, contains_filter,
      isFileInjected_eq_contains]
  constructor
  · intro st M s f h
    rw [key, h]
    simp [List.contains, List.elem_eq_mem]
  · intro st M s f₁ f₂ hb h₁ h₂
    rw [key, key, h₁, h₂, hb]

/-- C10 witness: a state tracking the two full paths `/a/ts.md` and `/b/ts.md`
(same base name, different directories) keeps both under markers `{"ts.md"}`
even though neither full path is itself a marker. -/
theorem C10_sync_compares_basenames_witness :
    (((SessionState.mk [("A", ["/a/ts.md", "/b/ts.md"])] [] []).syncWithMarkers
        ["ts.md"]).isFileInjected "A" "/a/ts.md" = true ↔ "ts.md" ∈ ["ts.md"])
    ∧ ((SessionState.mk [("A", ["/a/ts.md", "/b/ts.md"])] [] []).syncWithMarkers
        ["ts.md"]).isFileInjected "A" "/a/ts.md"
      = ((SessionState.mk [("A", ["/a/ts.md", "/b/ts.md"])] [] []).syncWithMarkers
        ["ts.md"]).isFileInjected "A" "/b/ts.md" := by
  constructor
  · exact (C10_sync_compares_basenames.1 (SessionState.mk [("A", ["/a/ts.md", "/b/ts.md"])] [] [])
      ["ts.md"] "A" "/a/ts.md" (by decide)).trans (by decide)
  · exact C10_sync_compares_basenames.2 (SessionState.mk [("A", ["/a/ts.md", "/b/ts.md"])] [] [])
      ["ts.md"] "A" "/a/ts.md" "/b/ts.md" (by decide) (by decide) (by decide)

/-- C6: the pre-tool-execution hook is a no-op — the state (including staged
pending text) is returned unchanged and no error can be raised — whenever the
tool is not one of read/edit/write or the `filePath` argument is absent or not
a string. -/
theorem C6_before_hook_noop (insts : List PathInstruction) (dir : String)
    (st : SessionState) (input : HookInput) (fp : FilePathArg)
    (h : FILE_TOOLS.contains input.tool = false
        ∨ fp = FilePathArg.absent ∨ fp = FilePathArg.nonString) :
    toolExecuteBefore insts dir st input fp = st := by
  unfold toolExecuteBefore
  rcases h with h | h | h
  · have h' : ¬ (FILE_TOOLS.contains input.tool = true) := by
      intro hc
      rw [h] at hc
      exact Bool.false_ne_true hc
    rw [if_pos h']
  · subst h
    by_cases ht : FILE_TOOLS.contains input.tool = true <;> simp [ht]
  · subst h
    by_cases ht : FILE_TOOLS.contains input.tool = true <;> simp [ht]

/-- C6 witness: a `grep` call with a string path, and a `read` call with an
absent path, both leave a nonempty concrete state unchanged. -/
theorem C6_before_hook_noop_witness :
    toolExecuteBefore [] "/p" (SessionState.mk [("A", ["f"])] [] [])
        (HookInput.mk "grep" "A" "c1") (FilePathArg.str "x")
      = SessionState.mk [("A", ["f"])] [] []
    ∧ toolExecuteBefore [] "/p" (SessionState.mk [("A", ["f"])] [] [])
        (HookInput.mk "read" "A" "c1") FilePathArg.absent
      = SessionState.mk [("A", ["f"])] [] [] := by
  constructor
  · exact C6_before_hook_noop [] "/p" (SessionState.mk [("A", ["f"])] [] [])
      (HookInput.mk "grep" "A" "c1") (FilePathArg.str "x") (Or.inl (by decide))
  · exact C6_before_hook_noop [] "/p" (SessionState.mk [("A", ["f"])] [] [])
      (HookInput.mk "read" "A" "c1") FilePathArg.absent (Or.inr (Or.inl rfl))

/-- C2: `clearSession` (modelled from the spec, implementation absent from the
provided sources) removes the session's delivered-file set and its
repo-instruction flag, leaves `pendingByCall` and every other session's state
unchanged, and is a no-op (not an error) on an unknown session. The two
`Nodup` hypotheses are the JS `Map`/`Set` representation invariants (a JS map
cannot hold a key twice). -/
theorem C2_clearSession_drops_session_state (st : SessionState) (s : String)
    (hkeys : (st.injectedPerSession.map Prod.fst).Nodup)
    (hrepo : st.repoInstructionsInjected.Nodup) :
    (∀ f, (st.clearSession s).isFileInjected s f = false)
    ∧ (st.clearSession s).hasRepoInstructions s = false
    ∧ (st.clearSession s).pendingInstructions = st.pendingInstructions
    ∧ (∀ s' f, s' ≠ s → (st.clearSession s).isFileInjected s' f = st.isFileInjected s' f)
    ∧ (∀ s', s' ≠ s → (st.clearSession s).hasRepoInstructions s'
        = st.hasRepoInstructions s')
    ∧ (mapGet st.injectedPerSession s = none → s ∉ st.repoInstructionsInjected →
        st.clearSession s = st) := by
  refine ⟨fun f => ?_, ?_, rfl, fun s' f hne => ?_, fun s' hne => ?_, fun h1 h2 => ?_⟩
  · unfold SessionState.clearSession SessionState.isFileInjected
    simp only [mapGet_mapDelete_self st.injectedPerSession s hkeys]
  · unfold SessionState.clearSession SessionState.hasRepoInstructions
    exact contains_setDelete_self st.repoInstructionsInjected s hrepo
  · unfold SessionState.clearSession SessionState.isFileInjected
    rw [mapGet_mapDelete_ne st.injectedPerSession s s' (Ne.symm hne)]
  · unfold SessionState.clearSession SessionState.hasRepoInstructions
    exact contains_setDelete_ne st.repoInstructionsInjected s s' hne
  · unfold SessionState.clearSession
    rw [mapDelete_of_mapGet_none st.injectedPerSession s h1,
      setDelete_of_not_mem st.repoInstructionsInjected s h2]

/-- C2 witness: clearing session `A` on a concrete state with two sessions, a
repo flag for each and one pending call drops exactly session `A`'s file set
and repo flag, and clearing the unknown session `Z` is the identity. -/
theorem C2_clearSession_drops_session_state_witness :
    ((SessionState.mk [("A", ["f"]), ("B", ["g"])] ["A", "B"]
        [("c1", "T")]).clearSession "A").isFileInjected "A" "f" = false
    ∧ ((SessionState.mk [("A", ["f"]), ("B", ["g"])] ["A", "B"]
        [("c1", "T")]).clearSession "A").hasRepoInstructions "A" = false
    ∧ ((SessionState.mk [("A", ["f"]), ("B", ["g"])] ["A", "B"]
        [("c1", "T")]).clearSession "A").pendingInstructions = [("c1", "T")]
    ∧ ((SessionState.mk [("A", ["f"]), ("B", ["g"])] ["A", "B"]
        [("c1", "T")]).clearSession "A").isFileInjected "B" "g"
      = (SessionState.mk [("A", ["f"]), ("B", ["g"])] ["A", "B"]
        [("c1", "T")]).isFileInjected "B" "g"
    ∧ (SessionState.mk [("A", ["f"])] [] []).clearSession "Z"
      = SessionState.mk [("A", ["f"])] [] [] := by
  have h := C2_clearSession_drops_session_state
    (SessionState.mk [("A", ["f"]), ("B", ["g"])] ["A", "B"] [("c1", "T")]) "A"
    (by decide) (by decide)
  have h2 := C2_clearSession_drops_session_state
    (SessionState.mk [("A", ["f"])] [] []) "Z" (by decide) (by decide)
  exact ⟨h.1 "f", h.2.1, h.2.2.1, h.2.2.2.1 "B" "g" (by decide),
    h2.2.2.2.2.2 (by decide) (by decide)⟩

/-- C7: for all sessions and file keys, `isFileInjected` is false on the
initial state, true after `markFileInjected`, false again after
`clearFileMarker`, and `markFileInjected` is idempotent: after marking twice
the flag is still true and `getInjectedFiles` holds the key exactly once. The
`Nodup` hypothesis is the JS `Set` representation invariant. -/
theorem C7_mark_clear_lifecycle (st : SessionState) (s k : String)
    (hnd : (st.getInjectedFiles s).Nodup) :
    SessionState.init.isFileInjected s k = false
    ∧ (st.markFileInjected s k).isFileInjected s k = true
    ∧ ((st.markFileInjected s k).clearFileMarker s k).isFileInjected s k = false
    ∧ ((st.markFileInjected s k).markFileInjected s k).isFileInjected s k = true
    ∧ (((st.markFileInjected s k).markFileInjected s k).getInjectedFiles s).count k = 1 := by
  have hmark : (st.markFileInjected s k).getInjectedFiles s
      = setAdd (st.getInjectedFiles s) k := by
    rw [getInjectedFiles_markFileInjected]
    simp
  have hmark2 : ((st.markFileInjected s k).markFileInjected s k).getInjectedFiles s
      = setAdd (st.getInjectedFiles s) k := by
    rw [getInjectedFiles_markFileInjected, if_pos rfl, hmark,
      setAdd_of_mem _ _ (mem_setAdd_self _ _)]
  refine ⟨rfl, ?_, ?_, ?_, ?_⟩
  · rw [isFileInjected_eq_contains, hmark, contains_setAdd]
    simp
  · rw [isFileInjected_eq_contains, getInjectedFiles_clearFileMarker]
    simp only [if_pos rfl]
    rw [hmark]
    exact contains_setDelete_self _ _ (setAdd_nodup _ _ hnd)
  · rw [isFileInjected_eq_contains, hmark2, contains_setAdd]
    simp
  · rw [hmark2]
    exact count_setAdd_self _ _ hnd

/-- C7 witness: the lifecycle holds concretely for session `S` and key `f`
starting from the empty state. -/
theorem C7_mark_clear_lifecycle_witness :
    (SessionState.init.markFileInjected "S" "f").isFileInjected "S" "f" = true
    ∧ ((SessionState.init.markFileInjected "S" "f").clearFileMarker "S" "f").isFileInjected
        "S" "f" = false
    ∧ (((SessionState.init.markFileInjected "S" "f").markFileInjected "S"
        "f").getInjectedFiles "S").count "f" = 1 := by
  have h := C7_mark_clear_lifecycle SessionState.init "S" "f" (by decide)
  exact ⟨h.2.1, h.2.2.1, h.2.2.2.2⟩

/-- C8: `consumePending` is read-then-delete: after `setPending c T` the first
`consumePending c` returns `T` and removes exactly that entry (so a second
`consumePending c` and any `getPending c` return absent, while other call ids
are untouched), and `consumePending` on a call id that is absent returns
absent and leaves the pending map unchanged. The `Nodup` hypothesis is the JS
`Map` representation invariant. -/
theorem C8_consumePending_read_then_delete (st : SessionState) (c t : String)
    (hnd : (st.pendingInstructions.map Prod.fst).Nodup) :
    ((st.setPending c t).consumePending c).1 = some t
    ∧ (((st.setPending c t).consumePending c).2).getPending c = none
    ∧ (∀ c', c' ≠ c → (((st.setPending c t).consumePending c).2).getPending c'
        = st.getPending c')
    ∧ ((((st.setPending c t).consumePending c).2).consumePending c).1 = none
    ∧ (∀ (st' : SessionState) (c'' : String), st'.getPending c'' = none →
        st'.consumePending c'' = (none, st')) := by
  have habsent : ∀ (st' : SessionState) (c'' : String), st'.getPending c'' = none →
      st'.consumePending c'' = (none, st') := by
    intro st' c'' h
    unfold SessionState.consumePending
    unfold SessionState.getPending at h
    rw [h]
  have hget : mapGet (st.setPending c t).pendingInstructions c = some t := by
    unfold SessionState.setPending
    simp [mapGet_mapSet]
  have hcons1 : ((st.setPending c t).consumePending c).1 = some t := by
    unfold SessionState.consumePending
    rw [hget]
  have hcons2 : ((st.setPending c t).consumePending c).2.pendingInstructions
      = mapDelete (st.setPending c t).pendingInstructions c := by
    unfold SessionState.consumePending
    rw [hget]
  have hkeys : (((st.setPending c t).pendingInstructions).map Prod.fst).Nodup := by
    unfold SessionState.setPending
    exact keys_mapSet_nodup st.pendingInstructions c t hnd
  have hgone : (((st.setPending c t).consumePending c).2).getPending c = none := by
    unfold SessionState.getPending
    rw [hcons2]
    exact mapGet_mapDelete_self _ c hkeys
  refine ⟨hcons1, hgone, fun c' hne => ?_, ?_, habsent⟩
  · unfold SessionState.getPending
    rw [hcons2, mapGet_mapDelete_ne _ c c' (Ne.symm hne)]
    unfold SessionState.setPending
    simp only [mapGet_mapSet]
    rw [if_neg (Ne.symm hne)]
  · rw [habsent _ c hgone]

/-- C8 witness: the concrete sequence `setPending "c1" "T"` then two
`consumePending "c1"` calls on the empty state returns `"T"` then absent. -/
theorem C8_consumePending_read_then_delete_witness :
    ((SessionState.init.setPending "c1" "T").consumePending "c1").1 = some "T"
    ∧ ((((SessionState.init.setPending "c1" "T").consumePending
        "c1").2).consumePending "c1").1 = none := by
  have h := C8_consumePending_read_then_delete SessionState.init "c1" "T" (by decide)
  exact ⟨h.1, h.2.2.2.1⟩

/-- C9: every tracker operation is total over its key space (in the embedding
every operation is a total function by construction) and absent keys yield the
documented defaults: false for `isFileInjected` on an unknown session, the
empty set for `getInjectedFiles`, false for `hasRepoInstructions`, absent for
`getPending`/`consumePending`, and a silent no-op for `clearFileMarker`. -/
theorem C9_total_with_defaults (st : SessionState) (s f c : String) :
    (mapGet st.injectedPerSession s = none →
        st.isFileInjected s f = false
        ∧ st.getInjectedFiles s = []
        ∧ st.clearFileMarker s f = st)
    ∧ (st.isFileInjected s f = false → st.clearFileMarker s f = st)
    ∧ (st.hasRepoInstructions s = false ↔ s ∉ st.repoInstructionsInjected)
    ∧ (st.getPending c = none → st.consumePending c = (none, st)) := by
  refine ⟨fun h => ⟨?_, ?_, ?_⟩, fun h => ?_, ?_, fun h => ?_⟩
  · unfold SessionState.isFileInjected
    rw [h]
  · unfold SessionState.getInjectedFiles
    rw [h]
    rfl
  · unfold SessionState.clearFileMarker
    rw [h]
  · unfold SessionState.clearFileMarker
    cases hm : mapGet st.injectedPerSession s with
    | none => rfl
    | some files =>
        have hf : f ∉ files := by
          unfold SessionState.isFileInjected at h
          rw [hm] at h
          simpa [List.contains, List.elem_eq_mem] using h
        dsimp only
        rw [setDelete_of_not_mem files f hf, mapSet_of_mapGet_eq _ s files hm]
  · unfold SessionState.hasRepoInstructions
    simp [List.contains, List.elem_eq_mem]
  · unfold SessionState.consumePending
    unfold SessionState.getPending at h
    rw [h]

/-- C9 witness: on a concrete one-session state, the unknown session `Z` and
unknown call `c9` give the default results and `clearFileMarker` is a no-op
both for the unknown session and for an unknown file of a known session. -/
theorem C9_total_with_defaults_witness :
    (SessionState.mk [("A", ["f"])] ["A"] [("c1", "T")]).isFileInjected "Z" "f" = false
    ∧ (SessionState.mk [("A", ["f"])] ["A"] [("c1", "T")]).getInjectedFiles "Z" = []
    ∧ (SessionState.mk [("A", ["f"])] ["A"] [("c1", "T")]).clearFileMarker "A" "g"
      = SessionState.mk [("A", ["f"])] ["A"] [("c1", "T")]
    ∧ (SessionState.mk [("A", ["f"])] ["A"] [("c1", "T")]).consumePending "c9"
      = (none, SessionState.mk [("A", ["f"])] ["A"] [("c1", "T")]) := by
  have h := C9_total_with_defaults (SessionState.mk [("A", ["f"])] ["A"] [("c1", "T")])
    "Z" "f" "c9"
  have h2 := C9_total_with_defaults (SessionState.mk [("A", ["f"])] ["A"] [("c1", "T")])
    "A" "g" "c9"
  exact ⟨(h.1 (by decide)).1, (h.1 (by decide)).2.1, h2.2.1 (by decide),
    h.2.2.2 (by decide)⟩

theorem scanAux_nil (f : Nat) : scanAux f [] = [] := by cases f <;> rfl

theorem scanAux_cons (f : Nat) (c : Char) (cs : List Char) :
    scanAux (f + 1) (c :: cs) =
      if tagChars.isPrefixOf (c :: cs) then
        if (tagTok (c :: cs)).isEmpty || (tagRem (c :: cs)).isEmpty then scanAux f cs
        else String.mk (tagTok (c :: cs)) :: scanAux f (tagRem (c :: cs)).tail
      else scanAux f cs := rfl

theorem tagChars_cons : tagChars = '<' :: "copilot-instruction:".data := rfl

theorem tagChars_length : tagChars.length = 21 := rfl

theorem not_tag_of_head_ne (c : Char) (cs : List Char) (h : c ≠ '<') :
    tagChars.isPrefixOf (c :: cs) = false := by
  rw [tagChars_cons]
  simp [List.isPrefixOf]
  intro heq
  exact absurd heq.symm h

theorem not_tag_lt_slash (cs : List Char) :
    tagChars.isPrefixOf ('<' :: '/' :: cs) = false := by
  rw [tagChars_cons, show "copilot-instruction:".data = 'c' :: "opilot-instruction:".data from rfl]
  simp [List.isPrefixOf]

theorem isPrefixOf_append_self (l t : List Char) : l.isPrefixOf (l ++ t) = true := by
  induction l with
  | nil => simp [List.isPrefixOf]
  | cons c cs ih => simp [List.isPrefixOf, ih]

theorem tagRest_length_le (c : Char) (cs : List Char) :
    (tagRest (c :: cs)).length ≤ cs.length := by
  simp only [tagRest, List.length_drop, tagChars_length, List.length_cons]
  omega

theorem scanAux_congr_fuel (n : Nat) : ∀ (l : List Char) (f g : Nat),
    l.length = n → n ≤ f → n ≤ g → scanAux f l = scanAux g l := by
  induction n using Nat.strong_induction_on with
  | _ n ih =>
    intro l f g hlen hf hg
    match l with
    | [] => rw [scanAux_nil, scanAux_nil]
    | c :: cs =>
      have hn : n = cs.length + 1 := by
        rw [← hlen, List.length_cons]
      obtain ⟨f', rfl⟩ : ∃ f', f = f' + 1 := ⟨f - 1, by omega⟩
      obtain ⟨g', rfl⟩ : ∃ g', g = g' + 1 := ⟨g - 1, by omega⟩
      rw [scanAux_cons, scanAux_cons]
      by_cases htag : tagChars.isPrefixOf (c :: cs) = true
      · rw [if_pos htag, if_pos htag]
        by_cases hte : ((tagTok (c :: cs)).isEmpty || (tagRem (c :: cs)).isEmpty) = true
        · rw [if_pos hte, if_pos hte]
          exact ih cs.length (by omega) cs f' g' rfl (by omega) (by omega)
        · rw [if_neg hte, if_neg hte]
          have hrem : (tagRem (c :: cs)) ≠ [] := by
            intro he
            simp [he] at hte
          have hremlen : (tagRem (c :: cs)).length ≤ cs.length := by
            have h1 := tagRest_length_le c cs
            have h2 : (tagRem (c :: cs)).length ≤ (tagRest (c :: cs)).length := by
              simp only [tagRem, List.length_drop]
              omega
            omega
          have htail : (tagRem (c :: cs)).tail.length < n := by
            have : (tagRem (c :: cs)).tail.length = (tagRem (c :: cs)).length - 1 :=
              List.length_tail _
            have hpos : 0 < (tagRem (c :: cs)).length := List.length_pos.mpr hrem
            omega
          rw [ih (tagRem (c :: cs)).tail.length (by omega) _ f' g' rfl (by omega) (by omega)]
      · rw [if_neg htag, if_neg htag]
        exact ih cs.length (by omega) cs f' g' rfl (by omega) (by omega)

theorem scanAux_eq_scanMarkerList (f : Nat) (l : List Char) (h : l.length ≤ f) :
    scanAux f l = scanMarkerList l :=
  scanAux_congr_fuel l.length l f l.length rfl h le_rfl

theorem scanMarkerList_cons_skip (c : Char) (cs : List Char)
    (h : tagChars.isPrefixOf (c :: cs) = false) :
    scanMarkerList (c :: cs) = scanMarkerList cs := by
  unfold scanMarkerList
  rw [List.length_cons, scanAux_cons, if_neg (by rw [h]; exact Bool.false_ne_true)]

theorem scanMarkerList_append_no_lt (l ys : List Char) (h : ∀ a ∈ l, a ≠ '<') :
    scanMarkerList (l ++ ys) = scanMarkerList ys := by
  induction l with
  | nil => rw [List.nil_append]
  | cons c cs ih =>
    rw [List.cons_append,
      scanMarkerList_cons_skip _ _ (not_tag_of_head_ne _ _ (h c (List.mem_cons_self c cs))),
      ih (fun a ha => h a (List.mem_cons_of_mem c ha))]

theorem takeWhile_append_stop (l : List Char) (b : Char) (t : List Char)
    (p : Char → Bool) (hall : ∀ a ∈ l, p a = true) (hb : p b = false) :
    (l ++ b :: t).takeWhile p = l := by
  induction l with
  | nil => simp [List.takeWhile_cons, hb]
  | cons c cs ih =>
    rw [List.cons_append, List.takeWhile_cons, hall c (List.mem_cons_self c cs),
      ih (fun a ha => hall a (List.mem_cons_of_mem c ha))]
    simp

theorem scanMarkerList_tag_open (idc ys : List Char) (hne : idc ≠ [])
    (hgt : ∀ a ∈ idc, a ≠ '>') :
    scanMarkerList (tagChars ++ (idc ++ '>' :: ys)) = String.mk idc :: scanMarkerList ys := by
  have hsplit : tagChars ++ (idc ++ '>' :: ys)
      = '<' :: ("copilot-instruction:".data ++ (idc ++ '>' :: ys)) := by
    rw [tagChars_cons]
    rfl
  have htag : tagChars.isPrefixOf (tagChars ++ (idc ++ '>' :: ys)) = true :=
    isPrefixOf_append_self _ _
  have hrest : tagRest (tagChars ++ (idc ++ '>' :: ys)) = idc ++ '>' :: ys := by
    unfold tagRest
    exact List.drop_left _ _
  have htok : tagTok (tagChars ++ (idc ++ '>' :: ys)) = idc := by
    unfold tagTok
    rw [hrest]
    exact takeWhile_append_stop idc '>' ys _
      (fun a ha => by simp [hgt a ha]) (by simp)
  have hrem : tagRem (tagChars ++ (idc ++ '>' :: ys)) = '>' :: ys := by
    unfold tagRem
    rw [hrest, htok]
    exact List.drop_left _ _
  have hcons : ∃ cs, tagChars ++ (idc ++ '>' :: ys) = '<' :: cs :=
    ⟨_, hsplit⟩
  obtain ⟨cs, hcs⟩ := hcons
  have hlen : (tagChars ++ (idc ++ '>' :: ys)).length = cs.length + 1 := by
    rw [hcs, List.length_cons]
  unfold scanMarkerList
  rw [hlen]
  conv_lhs => rw [hcs]
  rw [scanAux_cons, ← hcs, if_pos htag, htok, hrem]
  have hne' : (idc.isEmpty || (('>' :: ys).isEmpty : Bool)) ≠ true := by
    simp [List.isEmpty_iff, hne]
  rw [if_neg hne']
  simp only [List.tail_cons]
  congr 1
  have hyslen : ys.length ≤ cs.length := by
    have : (tagChars ++ (idc ++ '>' :: ys)).length
        = tagChars.length + idc.length + 1 + ys.length := by
      simp
      omega
    omega
  exact scanAux_eq_scanMarkerList cs.length ys hyslen

theorem scanMarkerList_close (idc ys : List Char) (hlt : ∀ a ∈ idc, a ≠ '<') :
    scanMarkerList ('\n' :: '<' :: '/' :: ("copilot-instruction:".data ++ (idc ++ '>' :: ys)))
      = scanMarkerList ys := by
  rw [scanMarkerList_cons_skip _ _ (not_tag_of_head_ne _ _ (by decide))]
  rw [scanMarkerList_cons_skip _ _ (not_tag_lt_slash _)]
  have hsh : '/' :: ("copilot-instruction:".data ++ (idc ++ '>' :: ys))
      = (('/' :: "copilot-instruction:".data) ++ (idc ++ ['>'])) ++ ys := by
    simp
  rw [hsh, scanMarkerList_append_no_lt]
  intro a ha haeq
  subst haeq
  simp at ha
  exact hlt '<' ha rfl

theorem formatBlock_data_append (i : PathInstruction) (ys : List Char) :
    (formatBlock i).data ++ ys
      = tagChars ++ ((basename i.file).data ++ '>' ::
          ("\n## Path-Specific Instructions (applies to: ".data
            ++ ((joinStrings ", " i.applyTo).data
              ++ (")\n\n".data
                ++ ((trimEnd i.content).data
                  ++ '\n' :: '<' :: '/' :: ("copilot-instruction:".data
                    ++ ((basename i.file).data ++ '>' :: ys))))))) := by
  simp [formatBlock, String.data_append, tagChars]

theorem mem_trimEnd (s : String) (a : Char) (h : a ∈ (trimEnd s).data) : a ∈ s.data := by
  unfold trimEnd at h
  simp only [String.data] at h
  rw [List.mem_reverse] at h
  have hsub : List.Sublist (List.dropWhile Char.isWhitespace s.data.reverse)
      s.data.reverse := List.dropWhile_sublist Char.isWhitespace
  have hmem := hsub.subset h
  rw [List.mem_reverse] at hmem
  exact hmem

theorem no_lt_joinStrings (sep : String) (L : List String)
    (hsep : ∀ a ∈ sep.data, a ≠ '<') (hL : ∀ p ∈ L, ∀ a ∈ p.data, a ≠ '<') :
    ∀ a ∈ (joinStrings sep L).data, a ≠ '<' := by
  induction L with
  | nil => intro a ha; simp [joinStrings] at ha
  | cons p rest ih =>
    cases rest with
    | nil =>
        intro a ha
        exact hL p (List.mem_singleton_self p) a ha
    | cons q rest' =>
        intro a ha
        rw [show joinStrings sep (p :: q :: rest') = p ++ sep ++ joinStrings sep (q :: rest')
          from rfl] at ha
        simp only [String.data_append, List.mem_append] at ha
        rcases ha with (ha | ha) | ha
        · exact hL p (List.mem_cons_self p _) a ha
        · exact hsep a ha
        · exact ih (fun r hr => hL r (List.mem_cons_of_mem p hr)) a ha

theorem scanMarkerList_formatBlock_append (i : PathInstruction) (ys : List Char)
    (hid : goodId i) (hcl : cleanBody i) :
    scanMarkerList ((formatBlock i).data ++ ys)
      = basename i.file :: scanMarkerList ys := by
  obtain ⟨hne, hgt, hlt⟩ := hid
  obtain ⟨hbody, hpats⟩ := hcl
  rw [formatBlock_data_append, scanMarkerList_tag_open _ _ hne hgt,
    scanMarkerList_append_no_lt _ _ (by decide),
    scanMarkerList_append_no_lt _ _ (no_lt_joinStrings _ _ (by decide) hpats),
    scanMarkerList_append_no_lt _ _ (by decide),
    scanMarkerList_append_no_lt _ _ (fun a ha => hbody a (mem_trimEnd _ a ha)),
    scanMarkerList_close _ _ hlt]

theorem scanMarkerList_joinBlocks (rs : List PathInstruction)
    (hid : ∀ i ∈ rs, goodId i) (hcl : ∀ i ∈ rs, cleanBody i) :
    scanMarkerList ((joinStrings "\n\n" (rs.map formatBlock)).data)
      = rs.map (fun i => basename i.file) := by
  induction rs with
  | nil => rfl
  | cons r rest ih =>
    cases rest with
    | nil =>
        have hone : (joinStrings "\n\n" ([r].map formatBlock)).data
            = (formatBlock r).data ++ [] := by simp [joinStrings]
        rw [hone, scanMarkerList_formatBlock_append r []
          (hid r (List.mem_singleton_self r)) (hcl r (List.mem_singleton_self r))]
        rfl
    | cons q rest' =>
        have hsplit : (joinStrings "\n\n" ((r :: q :: rest').map formatBlock)).data
            = (formatBlock r).data
              ++ ("\n\n".data ++ (joinStrings "\n\n" ((q :: rest').map formatBlock)).data) := by
          rw [show joinStrings "\n\n" ((r :: q :: rest').map formatBlock)
              = formatBlock r ++ "\n\n" ++ joinStrings "\n\n" ((q :: rest').map formatBlock)
            from rfl]
          simp [String.data_append]
        rw [hsplit,
          scanMarkerList_formatBlock_append r _ (hid r (List.mem_cons_self r _))
            (hcl r (List.mem_cons_self r _)),
          scanMarkerList_append_no_lt _ _ (by decide),
          ih (fun i hi => hid i (List.mem_cons_of_mem r hi))
            (fun i hi => hcl i (List.mem_cons_of_mem r hi))]
        rfl

theorem mem_foldl_setAdd (l : List String) (acc : List String) (x : String) :
    x ∈ l.foldl setAdd acc ↔ x ∈ acc ∨ x ∈ l := by
  induction l generalizing acc with
  | nil => simp
  | cons y t ih =>
    rw [List.foldl_cons, ih, mem_setAdd]
    simp only [List.mem_cons]
    tauto

theorem mem_extractInstructionMarkers (t : String) (x : String) :
    x ∈ extractInstructionMarkers t ↔ x ∈ scanMarkerList t.data := by
  unfold extractInstructionMarkers
  rw [mem_foldl_setAdd]
  simp

theorem no_gt_scanAux (f : Nat) : ∀ (l : List Char) (tok : String),
    tok ∈ scanAux f l → ∀ a ∈ tok.data, a ≠ '>' := by
  induction f with
  | zero =>
      intro l tok h
      simp [scanAux] at h
  | succ f ih =>
      intro l tok h
      match l with
      | [] => simp [scanAux] at h
      | c :: cs =>
        rw [scanAux_cons] at h
        by_cases htag : tagChars.isPrefixOf (c :: cs) = true
        · rw [if_pos htag] at h
          by_cases hte : ((tagTok (c :: cs)).isEmpty || (tagRem (c :: cs)).isEmpty) = true
          · rw [if_pos hte] at h
            exact ih cs tok h
          · rw [if_neg hte] at h
            rcases List.mem_cons.mp h with rfl | h
            · intro a ha
              have ha' : a ∈ (tagRest (c :: cs)).takeWhile (fun ch => ch != '>') := ha
              have hp := List.mem_takeWhile_imp ha'
              simpa using hp
            · exact ih _ tok h
        · rw [if_neg htag] at h
          exact ih cs tok h

theorem mark_preserves_true (st : SessionState) (s f s' f' : String)
    (h : st.isFileInjected s f = true) :
    (st.markFileInjected s' f').isFileInjected s f = true := by
  rw [isFileInjected_eq_contains, getInjectedFiles_markFileInjected]
  rw [isFileInjected_eq_contains] at h
  by_cases hs : s' = s
  · subst hs
    rw [if_pos rfl, contains_setAdd, h]
    rfl
  · rw [if_neg hs]
    exact h

theorem collect_preserves_true (s rel : String) (insts : List PathInstruction)
    (st : SessionState) (f : String) (h : st.isFileInjected s f = true) :
    (collectMatches s rel insts st).2.isFileInjected s f = true := by
  induction insts generalizing st with
  | nil => exact h
  | cons i rest ih =>
    unfold collectMatches
    by_cases h1 : st.isFileInjected s i.file = true
    · rw [if_pos h1]
      exact ih st h
    · rw [if_neg h1]
      by_cases h2 : i.matcher rel = true
      · rw [if_pos h2]
        exact ih _ (mark_preserves_true st s f s i.file h)
      · rw [if_neg h2]
        exact ih st h

theorem collect_marks (s rel : String) (insts : List PathInstruction)
    (st : SessionState) (r : PathInstruction) (hr : r ∈ insts)
    (hm : r.matcher rel = true) :
    (collectMatches s rel insts st).2.isFileInjected s r.file = true := by
  induction insts generalizing st with
  | nil => cases hr
  | cons i rest ih =>
    unfold collectMatches
    rcases List.mem_cons.mp hr with rfl | hr'
    · by_cases h1 : st.isFileInjected s r.file = true
      · rw [if_pos h1]
        exact collect_preserves_true s rel rest st r.file h1
      · rw [if_neg h1, if_pos hm]
        exact collect_preserves_true s rel rest _ r.file (by
          rw [isFileInjected_eq_contains, getInjectedFiles_markFileInjected, if_pos rfl,
            contains_setAdd]
          simp)
    · by_cases h1 : st.isFileInjected s i.file = true
      · rw [if_pos h1]
        exact ih st hr'
      · rw [if_neg h1]
        by_cases h2 : i.matcher rel = true
        · rw [if_pos h2]
          exact ih _ hr'
        · rw [if_neg h2]
          exact ih st hr'

theorem collect_sub (s rel : String) (insts : List PathInstruction) (st : SessionState)
    (i : PathInstruction) (hi : i ∈ (collectMatches s rel insts st).1) : i ∈ insts := by
  induction insts generalizing st with
  | nil => cases hi
  | cons j rest ih =>
    unfold collectMatches at hi
    by_cases h1 : st.isFileInjected s j.file = true
    · rw [if_pos h1] at hi
      exact List.mem_cons_of_mem j (ih st hi)
    · rw [if_neg h1] at hi
      by_cases h2 : j.matcher rel = true
      · rw [if_pos h2] at hi
        rcases List.mem_cons.mp hi with rfl | hi'
        · exact List.mem_cons_self i rest
        · exact List.mem_cons_of_mem j (ih _ hi')
      · rw [if_neg h2] at hi
        exact List.mem_cons_of_mem j (ih st hi)

theorem collect_not_injected (s rel : String) (insts : List PathInstruction)
    (st : SessionState) (i : PathInstruction)
    (hi : i ∈ (collectMatches s rel insts st).1) :
    st.isFileInjected s i.file = false := by
  induction insts generalizing st with
  | nil => cases hi
  | cons j rest ih =>
    unfold collectMatches at hi
    by_cases h1 : st.isFileInjected s j.file = true
    · rw [if_pos h1] at hi
      exact ih st hi
    · rw [if_neg h1] at hi
      by_cases h2 : j.matcher rel = true
      · rw [if_pos h2] at hi
        rcases List.mem_cons.mp hi with rfl | hi'
        · exact Bool.not_eq_true _ ▸ Bool.of_not_eq_true h1
        · have hmark := ih _ hi'
          by_cases hcur : st.isFileInjected s i.file = true
          · rw [mark_preserves_true st s i.file s j.file hcur] at hmark
            cases hmark
          · exact Bool.of_not_eq_true hcur
      · rw [if_neg h2] at hi
        exact ih st hi

theorem collect_pending (s rel : String) (insts : List PathInstruction) (st : SessionState) :
    (collectMatches s rel insts st).2.pendingInstructions = st.pendingInstructions := by
  induction insts generalizing st with
  | nil => rfl
  | cons i rest ih =>
    unfold collectMatches
    by_cases h1 : st.isFileInjected s i.file = true
    · rw [if_pos h1]
      exact ih st
    · rw [if_neg h1]
      by_cases h2 : i.matcher rel = true
      · rw [if_pos h2]
        exact ih _
      · rw [if_neg h2]
        exact ih st

theorem isFileInjected_congr (st st' : SessionState) (s f : String)
    (h : st.injectedPerSession = st'.injectedPerSession) :
    st.isFileInjected s f = st'.isFileInjected s f := by
  unfold SessionState.isFileInjected
  rw [h]

theorem getPending_congr (st st' : SessionState) (c : String)
    (h : st.pendingInstructions = st'.pendingInstructions) :
    st.getPending c = st'.getPending c := by
  unfold SessionState.getPending
  rw [h]

theorem injected_setPending_eq (st : SessionState) (c t : String) :
    (st.setPending c t).injectedPerSession = st.injectedPerSession := rfl

theorem before_injects (insts : List PathInstruction) (dir : String) (st : SessionState)
    (tool S c p : String) (r : PathInstruction) (hr : r ∈ insts)
    (htool : FILE_TOOLS.contains tool = true) (hp : p ≠ "")
    (hm : r.matcher (getRelativePath dir p) = true) :
    (toolExecuteBefore insts dir st (HookInput.mk tool S c)
      (FilePathArg.str p)).isFileInjected S r.file = true := by
  unfold toolExecuteBefore
  rw [if_neg (fun h => h htool)]
  simp only
  rw [if_neg hp]
  have hmarked := collect_marks S (getRelativePath dir p) insts st r hr hm
  by_cases hempty :
      (collectMatches S (getRelativePath dir p) insts st).1.isEmpty = true
  · rw [if_pos hempty]
    exact hmarked
  · rw [if_neg hempty]
    rw [isFileInjected_congr _ _ S r.file (injected_setPending_eq _ _ _)]
    exact hmarked

theorem before_pending_other (insts : List PathInstruction) (dir : String)
    (st : SessionState) (input : HookInput) (fp : FilePathArg) (c' : String)
    (hc : input.callID ≠ c') :
    (toolExecuteBefore insts dir st input fp).getPending c' = st.getPending c' := by
  unfold toolExecuteBefore
  by_cases htool : FILE_TOOLS.contains input.tool = true
  · rw [if_neg (fun h => h htool)]
    match fp with
    | FilePathArg.absent => rfl
    | FilePathArg.nonString => rfl
    | FilePathArg.str p =>
        simp only
        by_cases hp : p = ""
        · rw [if_pos hp]
        · rw [if_neg hp]
          by_cases hempty :
              (collectMatches input.sessionID (getRelativePath dir p) insts st).1.isEmpty = true
          · rw [if_pos hempty]
            exact getPending_congr _ _ c' (collect_pending _ _ _ _)
          · rw [if_neg hempty]
            rw [getPending_setPending, if_neg hc]
            exact getPending_congr _ _ c' (collect_pending _ _ _ _)
  · rw [if_pos (fun h => htool h)]

theorem after_pending_other (st : SessionState) (c : String) (out : String) (c' : String)
    (hc : c ≠ c') :
    (toolExecuteAfter st c out).1.getPending c' = st.getPending c' := by
  unfold toolExecuteAfter SessionState.consumePending
  cases hm : mapGet st.pendingInstructions c with
  | none => rfl
  | some text =>
      simp only
      unfold SessionState.getPending
      by_cases he : text = ""
      · rw [if_pos he]
        exact mapGet_mapDelete_ne _ c c' hc
      · rw [if_neg he]
        exact mapGet_mapDelete_ne _ c c' hc

theorem after_injected (st : SessionState) (c : String) (out : String) :
    (toolExecuteAfter st c out).1.injectedPerSession = st.injectedPerSession := by
  unfold toolExecuteAfter SessionState.consumePending
  cases mapGet st.pendingInstructions c with
  | none => rfl
  | some text =>
      simp only
      by_cases he : text = ""
      · rw [if_pos he]
      · rw [if_neg he]

theorem after_output (st : SessionState) (c : String) (out : String) :
    (toolExecuteAfter st c out).2
      = match st.getPending c with
        | some text => if text = "" then out else out ++ "\n\n" ++ text
        | none => out := by
  unfold toolExecuteAfter SessionState.consumePending SessionState.getPending
  cases mapGet st.pendingInstructions c with
  | none => rfl
  | some text =>
      simp only
      by_cases he : text = ""
      · rw [if_pos he, if_pos he]
      · rw [if_neg he, if_neg he]

theorem formatBlock_data_ne_nil (i : PathInstruction) : (formatBlock i).data ≠ [] := by
  have h := formatBlock_data_append i []
  rw [List.append_nil] at h
  rw [h, tagChars_cons]
  simp

theorem join_blocks_ne_empty (ms : List PathInstruction) (h : ms ≠ []) :
    joinStrings "\n\n" (ms.map formatBlock) ≠ "" := by
  intro he
  have hdata : (joinStrings "\n\n" (ms.map formatBlock)).data = [] := by
    rw [he]
  match ms with
  | [] => exact h rfl
  | [m] =>
      rw [show joinStrings "\n\n" ([m].map formatBlock) = formatBlock m from rfl] at hdata
      exact formatBlock_data_ne_nil m hdata
  | m :: q :: rest =>
      rw [show joinStrings "\n\n" ((m :: q :: rest).map formatBlock)
          = formatBlock m ++ "\n\n" ++ joinStrings "\n\n" ((q :: rest).map formatBlock)
        from rfl] at hdata
      simp only [String.data_append, List.append_eq_nil] at hdata
      exact formatBlock_data_ne_nil m hdata.1.1

theorem toolExecuteBefore_empty_str (insts : List PathInstruction) (dir : String)
    (st : SessionState) (input : HookInput) :
    toolExecuteBefore insts dir st input (FilePathArg.str "") = st := by
  unfold toolExecuteBefore
  by_cases htool : FILE_TOOLS.contains input.tool = true
  · rw [if_neg (fun h => h htool)]
    dsimp only
    rw [if_pos rfl]
  · rw [if_pos (fun h => htool h)]

theorem toolExecuteBefore_noop_helper (insts : List PathInstruction) (dir : String)
    (st : SessionState) (input : HookInput) (fp : FilePathArg)
    (h : FILE_TOOLS.contains input.tool = false
        ∨ fp = FilePathArg.absent ∨ fp = FilePathArg.nonString) :
    toolExecuteBefore insts dir st input fp = st := by
  unfold toolExecuteBefore
  rcases h with h | h | h
  · have h' : ¬ (FILE_TOOLS.contains input.tool = true) := by
      intro hc
      rw [h] at hc
      exact Bool.false_ne_true hc
    rw [if_pos h']
  · subst h
    by_cases ht : FILE_TOOLS.contains input.tool = true <;> simp [ht]
  · subst h
    by_cases ht : FILE_TOOLS.contains input.tool = true <;> simp [ht]

theorem toolExecuteBefore_str (insts : List PathInstruction) (dir : String)
    (st : SessionState) (input : HookInput) (p : String)
    (htool : FILE_TOOLS.contains input.tool = true) (hp : p ≠ "") :
    toolExecuteBefore insts dir st input (FilePathArg.str p)
      = (if (collectMatches input.sessionID (getRelativePath dir p) insts st).1.isEmpty = true
         then (collectMatches input.sessionID (getRelativePath dir p) insts st).2
         else (collectMatches input.sessionID (getRelativePath dir p) insts st).2.setPending
            input.callID (joinStrings "\n\n"
              ((collectMatches input.sessionID (getRelativePath dir p) insts st).1.map
                formatBlock))) := by
  unfold toolExecuteBefore
  rw [if_neg (fun h => h htool)]
  dsimp only
  rw [if_neg hp]

/-- C4 (amended): each path-scoped instruction is delivered at most once per
session — after a pre/post tool-hook pair in which the file tool's path
matched record `r` (so `r` was marked delivered already at pre-execution), any
subsequent pre/post pair in the same session, with no intervening
`clearSession`, `clearFileMarker` or marker eviction, either leaves the tool
output unchanged or appends staged text whose extracted markers do not include
`r`'s marker — PROVIDED the loaded records' identities are nonempty and free
of `<`/`>` and their bodies and patterns embed no `<` (the conditions the
counterexample forces: a later-matching record whose body embeds a
marker-shaped copy of `r`'s marker re-emits it), records with equal base names
share the file, and call ids are not reused. The original, unconditional claim
is refuted by `C4_instruction_delivered_at_most_once_counterexample`. -/
theorem C4_instruction_delivered_at_most_once (insts : List PathInstruction) (r : PathInstruction)
    (dir S tool₁ tool₂ c₁ c₂ p₁ p₂ rawOut₁ rawOut₂ : String) (st₀ : SessionState)
    (hr : r ∈ insts)
    (hgood : ∀ i ∈ insts, goodId i)
    (hclean : ∀ i ∈ insts, cleanBody i)
    (hdistinct : ∀ i ∈ insts, basename i.file = basename r.file → i.file = r.file)
    (htool₁ : FILE_TOOLS.contains tool₁ = true) (hp₁ : p₁ ≠ "")
    (hm₁ : r.matcher (getRelativePath dir p₁) = true)
    (hfresh : st₀.getPending c₂ = none) (hcc : c₁ ≠ c₂) :
    (toolExecuteAfter
        (toolExecuteBefore insts dir
          (toolExecuteAfter
            (toolExecuteBefore insts dir st₀ (HookInput.mk tool₁ S c₁) (FilePathArg.str p₁))
            c₁ rawOut₁).1
          (HookInput.mk tool₂ S c₂) (FilePathArg.str p₂))
        c₂ rawOut₂).2 = rawOut₂
    ∨ ∃ staged,
        (toolExecuteAfter
            (toolExecuteBefore insts dir
              (toolExecuteAfter
                (toolExecuteBefore insts dir st₀ (HookInput.mk tool₁ S c₁) (FilePathArg.str p₁))
                c₁ rawOut₁).1
              (HookInput.mk tool₂ S c₂) (FilePathArg.str p₂))
            c₂ rawOut₂).2 = rawOut₂ ++ "\n\n" ++ staged
          ∧ basename r.file ∉ extractInstructionMarkers staged := by
  set st₁ := toolExecuteBefore insts dir st₀ (HookInput.mk tool₁ S c₁) (FilePathArg.str p₁)
    with hst₁
  set st₂ := (toolExecuteAfter st₁ c₁ rawOut₁).1 with hst₂
  have hinj₁ : st₁.isFileInjected S r.file = true :=
    before_injects insts dir st₀ tool₁ S c₁ p₁ r hr htool₁ hp₁ hm₁
  have hinj₂ : st₂.isFileInjected S r.file = true := by
    rw [hst₂, isFileInjected_congr _ st₁ S r.file (after_injected st₁ c₁ rawOut₁)]
    exact hinj₁
  have hpend₂ : st₂.getPending c₂ = none := by
    rw [hst₂, after_pending_other st₁ c₁ rawOut₁ c₂ hcc, hst₁,
      before_pending_other insts dir st₀ (HookInput.mk tool₁ S c₁) (FilePathArg.str p₁) c₂ hcc]
    exact hfresh
  by_cases htool₂ : FILE_TOOLS.contains tool₂ = true
  · by_cases hp₂ : p₂ = ""
    · subst hp₂
      left
      rw [toolExecuteBefore_empty_str insts dir st₂ (HookInput.mk tool₂ S c₂),
        after_output, hpend₂]
    · rw [toolExecuteBefore_str insts dir st₂ (HookInput.mk tool₂ S c₂) p₂ htool₂ hp₂]
      by_cases hempty :
          (collectMatches S (getRelativePath dir p₂) insts st₂).1.isEmpty = true
      · left
        rw [if_pos hempty, after_output,
          getPending_congr _ st₂ c₂ (collect_pending S (getRelativePath dir p₂) insts st₂),
          hpend₂]
      · right
        rw [if_neg hempty]
        refine ⟨joinStrings "\n\n"
          ((collectMatches S (getRelativePath dir p₂) insts st₂).1.map formatBlock), ?_, ?_⟩
        · rw [after_output, getPending_setPending, if_pos rfl]
          dsimp only
          rw [if_neg (join_blocks_ne_empty _ (by
            intro he
            rw [he] at hempty
            exact hempty rfl))]
        · intro hmem
          rw [mem_extractInstructionMarkers,
            scanMarkerList_joinBlocks _
              (fun i hi => hgood i (collect_sub _ _ _ _ i hi))
              (fun i hi => hclean i (collect_sub _ _ _ _ i hi))] at hmem
          obtain ⟨i, hi, hbi⟩ := List.mem_map.mp hmem
          have hfile : i.file = r.file :=
            hdistinct i (collect_sub _ _ _ _ i hi) hbi
          have hnot := collect_not_injected S (getRelativePath dir p₂) insts st₂ i hi
          rw [hfile, hinj₂] at hnot
          cases hnot
  · left
    rw [toolExecuteBefore_noop_helper insts dir st₂ (HookInput.mk tool₂ S c₂)
        (FilePathArg.str p₂)
        (Or.inl (by
          cases hb : FILE_TOOLS.contains tool₂
          · rfl
          · exact absurd hb htool₂)),
      after_output, hpend₂]

/-- C5 (amended): for records whose identities (file base names) are nonempty
and free of `<` and `>`, and whose bodies and patterns contain no `<`,
scanning the formatted blocks yields exactly the records' identity tokens;
and unconditionally no extracted token contains `>`. The original claim's
"for any set of delivered records" fails when a body embeds a marker-shaped
string (see the counterexample), which is what the added hypotheses exclude. -/
theorem C5_format_scan_roundtrip (rs : List PathInstruction)
    (hid : ∀ i ∈ rs, goodId i) (hcl : ∀ i ∈ rs, cleanBody i) :
    (∀ x, x ∈ extractInstructionMarkers (joinStrings "\n\n" (rs.map formatBlock))
        ↔ x ∈ rs.map (fun i => basename i.file))
    ∧ (∀ t tok : String, tok ∈ extractInstructionMarkers t → ∀ a ∈ tok.data, a ≠ '>') := by
  constructor
  · intro x
    rw [mem_extractInstructionMarkers, scanMarkerList_joinBlocks rs hid hcl]
  · intro t tok h
    rw [mem_extractInstructionMarkers] at h
    exact no_gt_scanAux _ _ tok h

/-- C5 witness: the round trip holds concretely for the single well-formed
record `tsRecord`: scanning its formatted block yields exactly its identity. -/
theorem C5_format_scan_roundtrip_witness :
    "ts.instructions.md" ∈ extractInstructionMarkers
        (joinStrings "\n\n" ([tsRecord].map formatBlock))
      ↔ "ts.instructions.md" ∈ [tsRecord].map (fun i => basename i.file) :=
  (C5_format_scan_roundtrip [tsRecord]
    (fun i hi => by rw [List.mem_singleton.mp hi]; decide)
    (fun i hi => by rw [List.mem_singleton.mp hi]; decide)).1 "ts.instructions.md"

/-- C5 counterexample: the claim as stated fails for a record whose body
embeds the marker-shaped string `<copilot-instruction:evil>` — scanning the
formatted block also yields the token `evil`, which is not an identity of any
delivered record. -/
theorem C5_format_scan_roundtrip_counterexample :
    "evil" ∈ extractInstructionMarkers (joinStrings "\n\n" ([evilRecord].map formatBlock))
    ∧ "evil" ∉ [evilRecord].map (fun i => basename i.file) := by
  refine ⟨by decide, by decide⟩

/-- C3 (amended): for a loaded record that matches, the delivery is recorded
under the record's full source-file path (`markFileInjected` with
`instruction.file`), while the literal token embedded in the emitted
`<copilot-instruction:...>` tags is the file's base name; the staged text's
extracted marker set is exactly that base name. (The original claim says one
single string — the base name — plays both roles; the code uses the full path
as the tracking key.) -/
theorem C3_tracking_key_and_marker_token (r : PathInstruction)
    (dir S c tool p : String) (st : SessionState)
    (htool : FILE_TOOLS.contains tool = true) (hp : p ≠ "")
    (hm : r.matcher (getRelativePath dir p) = true)
    (hnot : st.isFileInjected S r.file = false)
    (hid : goodId r) (hcl : cleanBody r) :
    (toolExecuteBefore [r] dir st (HookInput.mk tool S c)
        (FilePathArg.str p)).isFileInjected S r.file = true
    ∧ (toolExecuteBefore [r] dir st (HookInput.mk tool S c)
        (FilePathArg.str p)).getPending c = some (formatBlock r)
    ∧ (∀ x, x ∈ extractInstructionMarkers (formatBlock r) ↔ x = basename r.file) := by
  have hcoll : collectMatches S (getRelativePath dir p) [r] st
      = ([r], st.markFileInjected S r.file) := by
    unfold collectMatches
    rw [if_neg (by rw [hnot]; exact Bool.false_ne_true), if_pos hm]
    rfl
  have hbefore : toolExecuteBefore [r] dir st (HookInput.mk tool S c) (FilePathArg.str p)
      = (st.markFileInjected S r.file).setPending c (formatBlock r) := by
    rw [toolExecuteBefore_str [r] dir st (HookInput.mk tool S c) p htool hp]
    dsimp only
    rw [hcoll]
    rfl
  have hscan : ∀ x, x ∈ extractInstructionMarkers (formatBlock r) ↔ x = basename r.file := by
    intro x
    rw [mem_extractInstructionMarkers, show (formatBlock r).data = (formatBlock r).data ++ []
        from (List.append_nil _).symm,
      scanMarkerList_formatBlock_append r [] hid hcl]
    exact List.mem_singleton
  refine ⟨?_, ?_, hscan⟩
  · rw [hbefore,
      isFileInjected_congr _ (st.markFileInjected S r.file) S r.file
        (injected_setPending_eq _ _ _),
      isFileInjected_eq_contains, getInjectedFiles_markFileInjected, if_pos rfl,
      contains_setAdd]
    simp
  · rw [hbefore, getPending_setPending, if_pos rfl]

/-- C3 witness: the amended behaviour holds concretely for `tsRecord`. -/
theorem C3_tracking_key_and_marker_token_witness :
    (toolExecuteBefore [tsRecord] "/proj" SessionState.init (HookInput.mk "read" "S1" "c1")
        (FilePathArg.str "src/a.ts")).isFileInjected "S1" tsRecord.file = true
    ∧ (toolExecuteBefore [tsRecord] "/proj" SessionState.init (HookInput.mk "read" "S1" "c1")
        (FilePathArg.str "src/a.ts")).getPending "c1" = some (formatBlock tsRecord)
    ∧ (∀ x, x ∈ extractInstructionMarkers (formatBlock tsRecord)
        ↔ x = basename tsRecord.file) :=
  C3_tracking_key_and_marker_token tsRecord "/proj" "S1" "c1" "read" "src/a.ts"
    SessionState.init (by decide) (by decide) rfl rfl (by decide) (by decide)

/-- C3 counterexample: the claim as stated is false — for the loaded record
with file `/proj/.github/instructions/ts.instructions.md` the tracking key
(the full path) differs from the marker token (the base name): the full path
is tracked, the base name is not tracked, yet the staged text's marker token
is exactly the base name. -/
theorem C3_tracking_key_and_marker_token_counterexample :
    (toolExecuteBefore [tsRecord] "/proj" SessionState.init (HookInput.mk "read" "S1" "c1")
        (FilePathArg.str "src/a.ts")).getInjectedFiles "S1"
      = ["/proj/.github/instructions/ts.instructions.md"]
    ∧ (toolExecuteBefore [tsRecord] "/proj" SessionState.init (HookInput.mk "read" "S1" "c1")
        (FilePathArg.str "src/a.ts")).isFileInjected "S1" "ts.instructions.md" = false
    ∧ extractInstructionMarkers (((toolExecuteBefore [tsRecord] "/proj" SessionState.init
        (HookInput.mk "read" "S1" "c1") (FilePathArg.str "src/a.ts")).getPending
          "c1").getD "")
      = ["ts.instructions.md"]
    ∧ ("ts.instructions.md" : String) ≠ "/proj/.github/instructions/ts.instructions.md" := by
  refine ⟨by decide, by decide, by decide, by decide⟩

/-- C4 witness: the at-most-once property instantiated on a concrete run —
first `read src/a.ts` then `read src/b.ts` in session `S1` with records
`[tsRecord]`, starting from the empty state. -/
theorem C4_instruction_delivered_at_most_once_witness :
    (toolExecuteAfter
        (toolExecuteBefore [tsRecord] "/proj"
          (toolExecuteAfter
            (toolExecuteBefore [tsRecord] "/proj" SessionState.init
              (HookInput.mk "read" "S1" "c1") (FilePathArg.str "src/a.ts"))
            "c1" "out1").1
          (HookInput.mk "read" "S1" "c2") (FilePathArg.str "src/b.ts"))
        "c2" "out2").2 = "out2"
    ∨ ∃ staged,
        (toolExecuteAfter
            (toolExecuteBefore [tsRecord] "/proj"
              (toolExecuteAfter
                (toolExecuteBefore [tsRecord] "/proj" SessionState.init
                  (HookInput.mk "read" "S1" "c1") (FilePathArg.str "src/a.ts"))
                "c1" "out1").1
              (HookInput.mk "read" "S1" "c2") (FilePathArg.str "src/b.ts"))
            "c2" "out2").2 = "out2" ++ "\n\n" ++ staged
          ∧ basename tsRecord.file ∉ extractInstructionMarkers staged :=
  C4_instruction_delivered_at_most_once [tsRecord] tsRecord "/proj" "S1" "read" "read"
    "c1" "c2" "src/a.ts" "src/b.ts" "out1" "out2" SessionState.init
    (List.mem_singleton_self tsRecord)
    (fun i hi => by rw [List.mem_singleton.mp hi]; decide)
    (fun i hi => by rw [List.mem_singleton.mp hi]; decide)
    (fun i hi h => by rw [List.mem_singleton.mp hi])
    (by decide) (by decide) rfl rfl (by decide)

/-- C4 counterexample: the claim as stated (with no restriction on record
bodies) is false. With records `[tsRecord, sneakyRecord]`, the first pair
(`read src/a.ts`) delivers `tsRecord`'s block — its marker is in the first
output — and the second path `src/b.ts` also matches `tsRecord`; yet the
second pair's tool output contains `tsRecord`'s marker again, because the
not-yet-delivered `sneakyRecord` matches `src/b.ts` and its body embeds the
marker-shaped string `<copilot-instruction:ts.instructions.md>`. -/
theorem C4_instruction_delivered_at_most_once_counterexample :
    basename tsRecord.file ∈ extractInstructionMarkers
      (toolExecuteAfter
        (toolExecuteBefore [tsRecord, sneakyRecord] "/proj" SessionState.init
          (HookInput.mk "read" "S1" "c1") (FilePathArg.str "src/a.ts"))
        "c1" "out1").2
    ∧ tsRecord.matcher (getRelativePath "/proj" "src/b.ts") = true
    ∧ basename tsRecord.file ∈ extractInstructionMarkers
      (toolExecuteAfter
        (toolExecuteBefore [tsRecord, sneakyRecord] "/proj"
          (toolExecuteAfter
            (toolExecuteBefore [tsRecord, sneakyRecord] "/proj" SessionState.init
              (HookInput.mk "read" "S1" "c1") (FilePathArg.str "src/a.ts"))
            "c1" "out1").1
          (HookInput.mk "read" "S1" "c2") (FilePathArg.str "src/b.ts"))
        "c2" "out2").2 := by
  refine ⟨by decide, by decide, by decide⟩
